import Mathlib

/-!
Verification of the natural-language specification of `src/sift/pysift.py`
(a pure-Python SIFT keypoint detector and descriptor generator) against the
program's code, via a shallow embedding in Lean 4.

Modelling conventions:
* Python floats are modelled by `ℚ` (exact arithmetic); pixel grids are
  row-major `List (List ℚ)`.
* Python's arbitrary-precision `int` with two's-complement bitwise operators
  is modelled by `ℤ` with `Int.land` / `Int.lor` / `Int.lnot` (identical
  semantics).
* External collaborators (OpenCV `GaussianBlur`/`resize`, `numpy.linalg`
  `lstsq`/`norm`, and the transcendental float primitives `log`, `sqrt`,
  `cos`, `sin`, `arctan2`) are passed as function parameters, constrained
  only by their documented contracts.
* Python code that raises an exception (NameError) is modelled with
  `Option`/`Except`, the error case standing for the raised exception.
-/

namespace Pysift

/-! ### Octave-count arithmetic (pyramid planner)

`computeNumberOfOctaves` in the source is
`int(round(log(min(image_shape)) / log(2) - 1))`, evaluated in double
precision on the *base* image shape (the input upsampled 2x in both
directions).  For an integer shorter side `b ≥ 2`, the double-precision
expression computes `round(log2 b - 1)` exactly: ties are impossible since
`log2 b - 1 = k + 1/2` would force `b = 2^(k+3/2)`, which is irrational,
and no integer is close enough to such a value for the <= 1ulp error of the
float `log` to flip the rounding.  `round(log2 b - 1) = floor(log2 b - 1/2)
= floor(log2 (b*b/2)) / 2` over the integers, which is what we define here
(with a fuel-based floor-log so that the definition kernel-reduces). -/

/-- Fuel-based floor of the base-2 logarithm: `log2floorAux fuel n`
computes `⌊log₂ n⌋` provided `fuel ≥ n ≥ 1`. -/
def log2floorAux : ℕ → ℕ → ℕ
  | 0, _ => 0
  | fuel + 1, n => if n < 2 then 0 else log2floorAux fuel (n / 2) + 1

/-- `⌊log₂ n⌋` for `n ≥ 1` (and `0` for `n = 0`), kernel-computable. -/
def log2floor (n : ℕ) : ℕ := log2floorAux n n

/-- Embedding of `computeNumberOfOctaves` (src/sift/pysift.py:68-73):
`int(round(log(min(image_shape)) / log(2) - 1))`, which for an integer
shorter side `b ≥ 2` equals `round(log2 b - 1) = ⌊log₂(b·b/2)⌋ / 2`
exactly (see the section comment above).  The source applies this to the
shape of the *base* image, i.e. to twice the input dimensions.  For
`b ≤ 1` the float expression would be negative (`-1` at `b = 1`); since
the result only feeds Python `range()`, which treats negative arguments
as empty, returning `0` there is behaviourally identical. -/
def computeNumberOfOctaves (shape : ℕ × ℕ) : ℕ :=
  log2floor (min shape.1 shape.2 * min shape.1 shape.2 / 2) / 2

/-! ### Octave shapes

In `generateGaussianImages` (src/sift/pysift.py:100-122) each next octave is
seeded by resizing the octave base to
`(int(octave_base.shape[1] / 2), int(octave_base.shape[0] / 2))`,
i.e. both dimensions undergo truncating halving once per octave. -/

/-- One resolution-halving step `(h, w) ↦ (h / 2, w / 2)` (truncating, as
`int(shape / 2)` does). -/
def halveShape (s : ℕ × ℕ) : ℕ × ℕ := (s.1 / 2, s.2 / 2)

/-- Shape of octave `k` of a pyramid whose octave 0 has shape `base`. -/
def octaveShape (base : ℕ × ℕ) : ℕ → ℕ × ℕ
  | 0 => base
  | k + 1 => halveShape (octaveShape base k)

/-! ### Keypoints

Model of `cv2.KeyPoint` as used by the module: a point (two float
coordinates), size, angle, response (floats, here `ℚ`), the packed octave
field and class id (Python ints, here `ℤ`). -/

structure KeyPoint where
  pt0 : ℚ
  pt1 : ℚ
  size : ℚ
  angle : ℚ
  response : ℚ
  octave : ℤ
  class_id : ℤ
deriving DecidableEq

/-! ### Extremum detection (`isPixelAnExtremum`, src/sift/pysift.py:186-199) -/

/-- A 3×3 window of DoG values (`subimage[y, x]`). -/
def Subimage : Type := Fin 3 → Fin 3 → ℚ

/-- Threshold used by `findScaleSpaceExtrema` (line 154):
`floor(0.5 * contrast_threshold / num_intervals * 255)` (a float in the
source; `numpy.floor` returns the floor as a float). -/
def findScaleSpaceExtremaThreshold (contrast_threshold num_intervals : ℚ) : ℚ :=
  ((⌊(1 / 2 : ℚ) * contrast_threshold / num_intervals * 255⌋ : ℤ) : ℚ)

/-- Embedding of `isPixelAnExtremum`: the center element of the 3×3×3 input
is compared against the full 3×3 slices (including itself in the middle
slice, exactly as `center_pixel_value >= second_subimage` broadcasts in the
source). -/
def isPixelAnExtremum (first_subimage second_subimage third_subimage : Subimage)
    (threshold : ℚ) : Bool :=
  let center_pixel_value := second_subimage 1 1
  if |center_pixel_value| > threshold then
    if center_pixel_value > 0 then
      decide (∀ i j, first_subimage i j ≤ center_pixel_value) &&
      decide (∀ i j, third_subimage i j ≤ center_pixel_value) &&
      decide (∀ i j, second_subimage i j ≤ center_pixel_value)
    else if center_pixel_value < 0 then
      decide (∀ i j, center_pixel_value ≤ first_subimage i j) &&
      decide (∀ i j, center_pixel_value ≤ third_subimage i j) &&
      decide (∀ i j, center_pixel_value ≤ second_subimage i j)
    else false
  else false

/-- The spec's candidate-extremum predicate: magnitude strictly above the
floored threshold, and non-strictly ≥ (positive center) or ≤ (negative
center) than each of the 26 neighbors (center excluded). -/
def isCandidateExtremumSpec (first second third : Subimage) (threshold : ℚ) : Prop :=
  |second 1 1| > threshold ∧
  ((0 < second 1 1 ∧
      (∀ i j, first i j ≤ second 1 1) ∧
      (∀ i j, third i j ≤ second 1 1) ∧
      (∀ i j, ¬(i = 1 ∧ j = 1) → second i j ≤ second 1 1)) ∨
   (second 1 1 < 0 ∧
      (∀ i j, second 1 1 ≤ first i j) ∧
      (∀ i j, second 1 1 ≤ third i j) ∧
      (∀ i j, ¬(i = 1 ∧ j = 1) → second 1 1 ≤ second i j)))

/-! ### Gradient and Hessian at the center pixel (lines 290-321)

`pixel_array` is the 3×3×3 cube indexed `[s, y, x]` (scale, row, column). -/

/-- A 3×3×3 cube of rescaled DoG values, indexed `cube s y x`. -/
def PixelCube : Type := Fin 3 → Fin 3 → Fin 3 → ℚ

/-- Embedding of `computeGradientAtCenterPixel`: returns `(dx, dy, ds)` with
`dx = 0.5 * (p[1,1,2] - p[1,1,0])`, `dy = 0.5 * (p[1,2,1] - p[1,0,1])`,
`ds = 0.5 * (p[2,1,1] - p[0,1,1])`. -/
def computeGradientAtCenterPixel (pixel_array : PixelCube) : ℚ × ℚ × ℚ :=
  ((1 / 2) * (pixel_array 1 1 2 - pixel_array 1 1 0),
   (1 / 2) * (pixel_array 1 2 1 - pixel_array 1 0 1),
   (1 / 2) * (pixel_array 2 1 1 - pixel_array 0 1 1))

/-- Embedding of `computeHessianAtCenterPixel` (lines 302-321).  The body's
first statement computes `dxx = pixel_array[1, 1, 2] + pixel_array[1, 1, 0]
- 2 * center_pixel_value`, but the assignment
`center_pixel_value = pixel_array[1, 1, 1]` on line 312 is commented out
and no enclosing scope binds that name, so the call raises `NameError` for
every input.  `none` models the raised exception. -/
def computeHessianAtCenterPixel (pixel_array : PixelCube) :
    Option (Fin 3 → Fin 3 → ℚ) :=
  let _unused := pixel_array
  none

/-! ### Sub-pixel localization (`localizeExtremumViaQuadraticFit`, lines 202-287) -/

/-- Embedding of `localizeExtremumViaQuadraticFit` up to the point past
which control cannot proceed.  On the first refinement attempt the code
slices and stacks the 3×3×3 neighborhood (abstracted here as the argument
`cube`, the `/255`-rescaled pixel cube), computes its gradient, and then
calls `computeHessianAtCenterPixel`, which raises `NameError` (see above).
Even if a Hessian were returned, the very next executed statement,
`if np.all(abs(extremum_update) < 0.5): break` on line 234, raises
`NameError` as well: the module imports numpy functions individually and
never binds the name `np`.  Either way the exception escapes the call,
modelled by `Except.error ()`; in particular the refinement loop can never
complete an attempt, never converges, and never returns a keypoint or a
`None` skip. -/
def localizeExtremumViaQuadraticFit (cube : PixelCube) :
    Except Unit (Option (KeyPoint × ℕ)) :=
  let _gradient := computeGradientAtCenterPixel cube
  match computeHessianAtCenterPixel cube with
  | none => Except.error ()
  | some _hessian => Except.error ()

/-! ### Packed-octave bit arithmetic

`convertKeypointsToInputImageSize` (src/sift/pysift.py:437-447) rewrites the
packed octave field as `(octave & ~255) | ((octave - 1) & 255)` on a Python
`int` (arbitrary precision, two's-complement bitwise semantics), which is
exactly `Int.land` / `Int.lor` / `Int.lnot` on `ℤ`.  The lemmas below
characterize those operators arithmetically. -/

/-! ### Keypoint scale conversion (`convertKeypointsToInputImageSize`) -/

/-- Per-keypoint body of `convertKeypointsToInputImageSize` (lines 442-446):
`pt` and `size` are multiplied by `0.5` and the packed octave becomes
`(octave & ~255) | ((octave - 1) & 255)`. -/
def convertKeypointToInputImageSize (keypoint : KeyPoint) : KeyPoint :=
  { keypoint with
    pt0 := (1 / 2) * keypoint.pt0
    pt1 := (1 / 2) * keypoint.pt1
    size := (1 / 2) * keypoint.size
    octave := Int.lor (Int.land keypoint.octave (Int.lnot 255))
      (Int.land (keypoint.octave - 1) 255) }

/-- Embedding of `convertKeypointsToInputImageSize` (lines 437-447). -/
def convertKeypointsToInputImageSize (keypoints : List KeyPoint) : List KeyPoint :=
  keypoints.map convertKeypointToInputImageSize

/-! ### Descriptor post-processing (src/sift/pysift.py:569-577)

After trilinear accumulation the descriptor tensor is flattened to a
vector `v`; then the code clips against `norm(v) * descriptor_max_value`,
divides by `max(norm(clipped), float_tolerance)`, multiplies by 512,
rounds (numpy round-half-to-even) and saturates into `[0, 255]`.  The
Euclidean norm comes from the external collaborator `numpy.linalg.norm`;
it is passed in as a function `nrm` constrained by its contract
`nrm w * nrm w = sumSq w` where used. -/

/-- The module-level `float_tolerance = 1e-7` (modelled by the exact
rational; only its strict positivity and its role as a flooring constant
matter for the claims). -/
def float_tolerance : ℚ := 1 / 10000000

/-- Sum of squares of a vector (the square of its Euclidean norm). -/
def sumSq (v : List ℚ) : ℚ := (v.map (fun x => x * x)).sum

/-- numpy's `round`: round half to even. -/
def npRound (x : ℚ) : ℤ :=
  if x - ⌊x⌋ < 1 / 2 then ⌊x⌋
  else if 1 / 2 < x - ⌊x⌋ then ⌊x⌋ + 1
  else if ⌊x⌋ % 2 = 0 then ⌊x⌋ else ⌊x⌋ + 1

/-- Line 571-572: `threshold = norm(v) * 0.2;
v[v > threshold] = threshold`. -/
def clipDescriptorVector (nrm : List ℚ → ℚ) (v : List ℚ) : List ℚ :=
  v.map (fun x => if x > nrm v * (1 / 5) then nrm v * (1 / 5) else x)

/-- Line 573: `v /= max(norm(v), float_tolerance)` (the norm is recomputed
on the clipped vector). -/
def normalizeDescriptorVector (nrm : List ℚ → ℚ) (v : List ℚ) : List ℚ :=
  v.map (fun x => x / max (nrm v) float_tolerance)

/-- Lines 575-577: `v = round(512 * v); v[v < 0] = 0; v[v > 255] = 255`. -/
def quantizeDescriptorVector (v : List ℚ) : List ℚ :=
  ((v.map (fun x => ((npRound (512 * x) : ℤ) : ℚ))).map
    (fun x => if x < 0 then 0 else x)).map
    (fun x => if x > 255 then 255 else x)

/-- The whole post-processing chain applied to the flattened 128-vector. -/
def descriptorPostprocess (nrm : List ℚ → ℚ) (v : List ℚ) : List ℚ :=
  quantizeDescriptorVector
    (normalizeDescriptorVector nrm (clipDescriptorVector nrm v))

/-- A concrete Euclidean-norm collaborator used by the C7 witness: it
returns the exact norm `5` of the vector of 25 ones (and `0` elsewhere,
which the witness never queries). -/
def nrmExample : List ℚ → ℚ := fun l => if l = List.replicate 25 1 then 5 else 0

/-- A trivial norm collaborator used by the C8 witness (its value is
irrelevant there: the flooring by `float_tolerance` is what is checked). -/
def nrmZero : List ℚ → ℚ := fun _ => 0

/-! ### Orientation histogram smoothing and peak interpolation
(src/sift/pysift.py:365-384)

The 36-bin circular histogram; all indexing is modulo 36 (Python negative
indices `raw[n-1]`, `raw[n-2]` wrap, and positive overflow is taken
`% num_bins` explicitly in the source). -/

/-- Circular bin index (`num_bins = 36`, the source's fixed default). -/
def idx36 (i : ℤ) : Fin 36 := ⟨(i % 36).toNat, by omega⟩

/-- Lines 367-369: the 5-tap `[1, 4, 6, 4, 1] / 16` circular smoothing of
the raw orientation histogram. -/
def computeSmoothHistogram (raw : Fin 36 → ℚ) (n : Fin 36) : ℚ :=
  (6 * raw n + 4 * (raw (idx36 ((n : ℤ) - 1)) + raw (idx36 ((n : ℤ) + 1))) +
    raw (idx36 ((n : ℤ) - 2)) + raw (idx36 ((n : ℤ) + 2))) / 16

/-- Lines 373-374: `p` is an orientation peak of the (smoothed) histogram
`h` when `h[p]` strictly exceeds both circular neighbors
(`smooth_histogram > roll(smooth_histogram, 1)` and
`> roll(smooth_histogram, -1)`). -/
def isOrientationPeak (h : Fin 36 → ℚ) (p : Fin 36) : Prop :=
  h (idx36 ((p : ℤ) - 1)) < h p ∧ h (idx36 ((p : ℤ) + 1)) < h p

/-- The denominator `left_value - 2 * peak_value + right_value` of the
parabolic sub-bin interpolation on lines 382-383. -/
def peakInterpolationDenominator (h : Fin 36 → ℚ) (p : Fin 36) : ℚ :=
  h (idx36 ((p : ℤ) - 1)) - 2 * h p + h (idx36 ((p : ℤ) + 1))

/-- Concrete histogram for the C8 witness: a single bump at bin 0. -/
def bumpHistogram : Fin 36 → ℚ := fun n => if n = 0 then 1 else 0

/-! ### Duplicate keypoint removal (src/sift/pysift.py:396-430)

`compareKeypoints` returns a signed number whose sign orders two keypoints
(x, then y, then size descending, then angle, then response descending,
then octave descending, then class id descending); `removeDuplicateKeypoints`
sorts with it (Python's stable Timsort through `cmp_to_key`, modelled by the
stable `List.mergeSort` over the induced boolean ≤) and then keeps a
keypoint only if it differs from the last kept one in (x, y, size, angle). -/

/-- Embedding of `compareKeypoints` (lines 396-411). -/
def compareKeypoints (keypoint1 keypoint2 : KeyPoint) : ℚ :=
  if keypoint1.pt0 ≠ keypoint2.pt0 then keypoint1.pt0 - keypoint2.pt0
  else if keypoint1.pt1 ≠ keypoint2.pt1 then keypoint1.pt1 - keypoint2.pt1
  else if keypoint1.size ≠ keypoint2.size then keypoint2.size - keypoint1.size
  else if keypoint1.angle ≠ keypoint2.angle then keypoint1.angle - keypoint2.angle
  else if keypoint1.response ≠ keypoint2.response then keypoint2.response - keypoint1.response
  else if keypoint1.octave ≠ keypoint2.octave then ((keypoint2.octave - keypoint1.octave : ℤ) : ℚ)
  else ((keypoint2.class_id - keypoint1.class_id : ℤ) : ℚ)

/-- The boolean ≤ induced by the comparator (`a` sorts no later than `b`). -/
def keypointLE (k1 k2 : KeyPoint) : Bool := decide (compareKeypoints k1 k2 ≤ 0)

/-- `keypoints.sort(key=cmp_to_key(compareKeypoints))`: the stable sort by
the comparator order. -/
def sortKeypoints (keypoints : List KeyPoint) : List KeyPoint :=
  keypoints.mergeSort keypointLE

/-- `next` coincides with `last` in all four of (x, y, size, angle) — the
source drops `next` exactly in this case (lines 425-428 keep on any
difference). -/
def duplicateOf (last next : KeyPoint) : Prop :=
  next.pt0 = last.pt0 ∧ next.pt1 = last.pt1 ∧ next.size = last.size ∧
    next.angle = last.angle

instance (last next : KeyPoint) : Decidable (duplicateOf last next) := by
  unfold duplicateOf
  infer_instance

/-- The walk over the sorted tail (lines 423-429): keep a keypoint iff it
differs from the last kept one in (x, y, size, angle). -/
def removeDuplicatesWalk (last : KeyPoint) : List KeyPoint → List KeyPoint
  | [] => []
  | next :: rest =>
    if duplicateOf last next then removeDuplicatesWalk last rest
    else next :: removeDuplicatesWalk next rest

/-- Embedding of `removeDuplicateKeypoints` (lines 414-430): lists shorter
than 2 are returned as-is; otherwise sort, seed with the first element and
walk. -/
def removeDuplicateKeypoints (keypoints : List KeyPoint) : List KeyPoint :=
  if keypoints.length < 2 then keypoints
  else
    match sortKeypoints keypoints with
    | [] => []
    | k :: rest => k :: removeDuplicatesWalk k rest

/-- Generic first-difference comparator over two parallel key lists;
`compareKeypoints` is this applied to the 7-component key vectors (with
descending fields negated). -/
def cmpLists : List ℚ → List ℚ → ℚ
  | x :: xs, y :: ys => if x ≠ y then x - y else cmpLists xs ys
  | _, _ => 0

/-- The 7-component sort key of a keypoint, descending fields negated. -/
def keypointKey (k : KeyPoint) : List ℚ :=
  [k.pt0, k.pt1, -k.size, k.angle, -k.response, -(k.octave : ℚ), -(k.class_id : ℚ)]

/-! ### Pipeline skeleton (src/sift/pysift.py:28-41 and the pyramid builders)

The pipeline is embedded with its external collaborators (OpenCV resize and
GaussianBlur, the float `sqrt`, the per-candidate localization+orientation
work and the per-keypoint descriptor computation, which involve
transcendental float primitives) passed as function parameters.  The claims
proved against this skeleton are universally quantified over those
collaborators, constrained only by their documented shape contracts. -/

/-- Row-major grid of float samples. -/
abbrev Image : Type := List (List ℚ)

def imageHeight (img : Image) : ℕ := img.length

def imageWidth (img : Image) : ℕ := (img.headD []).length

/-- `image.shape`: `(rows, cols)`. -/
def imageShape (img : Image) : ℕ × ℕ := (imageHeight img, imageWidth img)

/-- `image[i][j]` (pipeline loops only access in-range pixels). -/
def pixelAt (img : Image) (i j : ℕ) : ℚ := (img.getD i []).getD j 0

/-- The 3×3 window `image[i-1:i+2, j-1:j+2]` (used with `1 ≤ i, j`). -/
def subimageAt (img : Image) (i j : ℕ) : Subimage :=
  fun di dj => pixelAt img (i - 1 + di) (j - 1 + dj)

/-- Embedding of `generateBaseImage` (lines 48-65): upsample 2× (linear,
collaborator), then blur by `sqrt(max(sigma² - (2·assumed_blur)², 0.01))`
(float `sqrt` passed as the collaborator `sqrtQ`). -/
def generateBaseImage (resize2xLinear : Image → Image) (blur : Image → ℚ → Image)
    (sqrtQ : ℚ → ℚ) (image : Image) (sigma assumed_blur : ℚ) : Image :=
  let upsampled := resize2xLinear image
  let sigma_diff := sqrtQ (max (sigma ^ 2 - (2 * assumed_blur) ^ 2) (1 / 100))
  blur upsampled sigma_diff

/-- Embedding of `generateGaussianKernels` (lines 76-97); `k2root` stands
for the float `2 ** (1 / num_intervals)`. -/
def generateGaussianKernels (sqrtQ : ℚ → ℚ) (k2root sigma : ℚ)
    (num_intervals : ℕ) : List ℚ :=
  sigma :: (List.range (num_intervals + 2)).map (fun t =>
    let sigma_previous := k2root ^ t * sigma
    let sigma_total := k2root * sigma_previous
    sqrtQ (sigma_total ^ 2 - sigma_previous ^ 2))

/-- One octave: `[image] ++` successive blurs by `kernels[1:]`
(lines 107-111). -/
def buildOctave (blur : Image → ℚ → Image) (image : Image)
    (gaussian_kernels : List ℚ) : List Image :=
  List.scanl blur image (gaussian_kernels.drop 1)

/-- Embedding of `generateGaussianImages` (lines 100-122): build
`num_octaves` octaves, seeding each next octave by nearest-neighbor
halving (target `(w / 2, h / 2)`, truncating) of the third-from-last
image of the previous octave. -/
def generateGaussianImages (blur : Image → ℚ → Image)
    (resizeNearest : Image → ℕ × ℕ → Image) (gaussian_kernels : List ℚ) :
    ℕ → Image → List (List Image)
  | 0, _ => []
  | num_octaves + 1, image =>
    let gaussian_images_in_octave := buildOctave blur image gaussian_kernels
    let octave_base :=
      gaussian_images_in_octave.getD (gaussian_images_in_octave.length - 3) []
    let next := resizeNearest octave_base
      (imageWidth octave_base / 2, imageHeight octave_base / 2)
    gaussian_images_in_octave ::
      generateGaussianImages blur resizeNearest gaussian_kernels num_octaves next

/-- `cv2.subtract(second_image, first_image)` on float images. -/
def imageSubtract (second_image first_image : Image) : Image :=
  List.zipWith (fun r2 r1 => List.zipWith (fun a b => a - b) r2 r1)
    second_image first_image

/-- Embedding of `generateDoGImages` (lines 125-141): per octave, pairwise
differences of adjacent Gaussian levels. -/
def generateDoGImages (gaussian_images : List (List Image)) : List (List Image) :=
  gaussian_images.map (fun octave =>
    List.zipWith (fun first_image second_image => imageSubtract second_image first_image)
      octave octave.tail)

/-- Embedding of `findScaleSpaceExtrema` (lines 148-183).  The per-candidate
localization (`localizeExtremumViaQuadraticFit`, which calls the external
least-squares collaborator) and the orientation assignment
(`computeKeypointsWithOrientations`, which uses float trigonometry) are
passed as the function parameters `localizeF` and `orientF`. -/
def findScaleSpaceExtrema (gaussian_images dog_images : List (List Image))
    (num_intervals : ℕ) (image_border_width : ℕ) (contrast_threshold : ℚ)
    (localizeF : ℕ → ℕ → ℕ → ℕ → List Image → Option (KeyPoint × ℕ))
    (orientF : KeyPoint → ℕ → Image → List KeyPoint) : List KeyPoint :=
  let threshold := findScaleSpaceExtremaThreshold contrast_threshold (num_intervals : ℚ)
  dog_images.enum.flatMap (fun octEntry =>
    let octave_index := octEntry.1
    let dog_images_in_octave := octEntry.2
    (List.zip (List.zip dog_images_in_octave dog_images_in_octave.tail)
        dog_images_in_octave.tail.tail).enum.flatMap (fun tripletEntry =>
      let image_index := tripletEntry.1
      let first_image := tripletEntry.2.1.1
      let second_image := tripletEntry.2.1.2
      let third_image := tripletEntry.2.2
      (List.range' image_border_width
          (imageHeight first_image - 2 * image_border_width)).flatMap (fun i =>
        (List.range' image_border_width
            (imageWidth first_image - 2 * image_border_width)).flatMap (fun j =>
          if isPixelAnExtremum (subimageAt first_image i j)
              (subimageAt second_image i j) (subimageAt third_image i j) threshold then
            match localizeF i j (image_index + 1) octave_index dog_images_in_octave with
            | none => []
            | some kpAndIndex =>
              orientF kpAndIndex.1 octave_index
                ((gaussian_images.getD octave_index []).getD kpAndIndex.2 [])
          else []))))

/-- Embedding of `generateDescriptors` (lines 465-579) at the pipeline
level: the per-keypoint descriptor computation (float trigonometry,
histogram splatting and the post-processing modelled separately above) is
the collaborator `descF`; the pipeline maps it over the keypoints. -/
def generateDescriptors (descF : KeyPoint → List (List Image) → List ℚ)
    (keypoints : List KeyPoint) (gaussian_images : List (List Image)) :
    List (List ℚ) :=
  keypoints.map (fun keypoint => descF keypoint gaussian_images)

/-- Embedding of `computeKeypointsAndDescriptors` (lines 28-41) with the
default `contrast_threshold = 0.04`. -/
def computeKeypointsAndDescriptors (resize2xLinear : Image → Image)
    (blur : Image → ℚ → Image) (resizeNearest : Image → ℕ × ℕ → Image)
    (sqrtQ : ℚ → ℚ) (k2root : ℚ)
    (localizeF : ℕ → ℕ → ℕ → ℕ → List Image → Option (KeyPoint × ℕ))
    (orientF : KeyPoint → ℕ → Image → List KeyPoint)
    (descF : KeyPoint → List (List Image) → List ℚ)
    (image : Image) (sigma : ℚ) (num_intervals : ℕ) (assumed_blur : ℚ)
    (image_border_width : ℕ) : List KeyPoint × List (List ℚ) :=
  let base_image := generateBaseImage resize2xLinear blur sqrtQ image sigma assumed_blur
  let num_octaves := computeNumberOfOctaves (imageShape base_image)
  let gaussian_kernels := generateGaussianKernels sqrtQ k2root sigma num_intervals
  let gaussian_images :=
    generateGaussianImages blur resizeNearest gaussian_kernels num_octaves base_image
  let dog_images := generateDoGImages gaussian_images
  let keypoints := findScaleSpaceExtrema gaussian_images dog_images num_intervals
    image_border_width (1 / 25) localizeF orientF
  let unique_keypoints := removeDuplicateKeypoints keypoints
  let converted_keypoints := convertKeypointsToInputImageSize unique_keypoints
  (converted_keypoints, generateDescriptors descF converted_keypoints gaussian_images)

/-! ### C3: small inputs, zero octaves and empty outputs -/

/-- Concrete 2× linear-resize collaborator for witnesses: it doubles both
dimensions (duplicating rows and columns blockwise; only the shape contract
matters). -/
def resize2xExample : Image → Image := fun img => (img ++ img).map (fun r => r ++ r)

/-- Concrete blur collaborator: returns its input (same shape, as the
contract requires). -/
def blurExample : Image → ℚ → Image := fun img _ => img

/-- Concrete nearest-neighbor resize collaborator for witnesses. -/
def resizeNearestExample : Image → ℕ × ℕ → Image := fun img _ => img

/-- Concrete float-sqrt collaborator for witnesses. -/
def sqrtExample : ℚ → ℚ := fun x => x

/-- Concrete localization collaborator for witnesses: skips everything. -/
def localizeExample : ℕ → ℕ → ℕ → ℕ → List Image → Option (KeyPoint × ℕ) :=
  fun _ _ _ _ _ => none

/-- Concrete orientation collaborator for witnesses. -/
def orientExample : KeyPoint → ℕ → Image → List KeyPoint := fun _ _ _ => []

/-- Concrete per-keypoint descriptor collaborator for witnesses. -/
def descExample : KeyPoint → List (List Image) → List ℚ := fun _ _ => []

/-- A 1 × 5 input image. -/
def imageExample1x5 : Image := [[0, 0, 0, 0, 0]]

/-- A 12 × 12 input image (shorter side below `2*image_border_width + 3 = 13`). -/
def imageExample12 : Image := List.replicate 12 (List.replicate 12 0)

/-! ### Theorems

All lemmas and claim theorems about the definitions above, kept in
dependency order. -/

theorem log2floorAux_spec : ∀ (fuel n : ℕ), 1 ≤ n → n ≤ fuel →
    2 ^ (log2floorAux fuel n) ≤ n ∧ n < 2 ^ (log2floorAux fuel n + 1) := by
  intro fuel
  induction fuel with
  | zero => intro n h1 h2; omega
  | succ fuel ih =>
    intro n h1 h2
    by_cases hn : n < 2
    · have hn1 : n = 1 := by omega
      simp [log2floorAux, hn, hn1]
    · have hrec := ih (n / 2) (by omega) (by omega)
      simp only [log2floorAux, hn, if_false]
      set a := log2floorAux fuel (n / 2) with ha
      constructor
      · have : 2 ^ a ≤ n / 2 := hrec.1
        calc 2 ^ (a + 1) = 2 ^ a * 2 := by ring
        _ ≤ (n / 2) * 2 := by omega
        _ ≤ n := by omega
      · have : n / 2 < 2 ^ (a + 1) := hrec.2
        have h4 : n < 2 ^ (a + 1) * 2 := by omega
        calc n < 2 ^ (a + 1) * 2 := h4
        _ = 2 ^ (a + 1 + 1) := by ring

theorem log2floor_spec (n : ℕ) (h : 1 ≤ n) :
    2 ^ (log2floor n) ≤ n ∧ n < 2 ^ (log2floor n + 1) :=
  log2floorAux_spec n n h (le_refl n)

/-- `⌊log₂ _⌋` is the unique exponent bracketing its argument. -/
theorem log2floor_unique {n k : ℕ} (h1 : 2 ^ k ≤ n) (h2 : n < 2 ^ (k + 1)) :
    log2floor n = k := by
  have hn : 1 ≤ n := le_trans (Nat.one_le_two_pow) h1
  obtain ⟨l1, l2⟩ := log2floor_spec n hn
  have c1 : 2 ^ k < 2 ^ (log2floor n + 1) := lt_of_le_of_lt h1 l2
  have c2 : 2 ^ (log2floor n) < 2 ^ (k + 1) := lt_of_le_of_lt l1 h2
  have d1 : k < log2floor n + 1 := (Nat.pow_lt_pow_iff_right (by omega)).mp c1
  have d2 : log2floor n < k + 1 := (Nat.pow_lt_pow_iff_right (by omega)).mp c2
  omega

/-- An odd power of two is never a perfect square. -/
theorem sq_ne_two_pow_odd : ∀ (k b : ℕ), b * b ≠ 2 ^ (2 * k + 1) := by
  intro k
  induction k with
  | zero =>
    intro b hb
    simp only [Nat.mul_zero, Nat.zero_add, pow_one] at hb
    rcases Nat.lt_or_ge b 2 with h | h
    · interval_cases b <;> omega
    · have : 2 * 2 ≤ b * b := Nat.mul_le_mul h h
      omega
  | succ k ih =>
    intro b hb
    have heven : b % 2 = 0 := by
      rcases Nat.mod_two_eq_zero_or_one b with h | h
      · exact h
      · exfalso
        have hbb : b * b % 2 = 1 := by
          have := Nat.mul_mod b b 2
          rw [h] at this
          simpa using this
        have hpow : 2 ^ (2 * (k + 1) + 1) % 2 = 0 := by
          have : (2 : ℕ) ∣ 2 ^ (2 * (k + 1) + 1) := dvd_pow_self 2 (by omega)
          omega
        rw [hb] at hbb
        omega
    obtain ⟨c, hc⟩ : ∃ c, b = 2 * c := ⟨b / 2, by omega⟩
    subst hc
    have hred : c * c = 2 ^ (2 * k + 1) := by
      have hexp : 2 * (k + 1) + 1 = (2 * k + 1) + 2 := by omega
      rw [hexp, pow_add] at hb
      have : 4 * (c * c) = 2 ^ (2 * k + 1) * 4 := by linarith [hb]
      omega
    exact ih c hred

/-- Characterization: for a shorter side `b ≥ 2`, the computed octave count
`k` is exactly the integer with `2^(2k+1) < b² < 2^(2k+3)`, i.e.
`k = round(log₂ b − 1)`. -/
theorem computeNumberOfOctaves_char (b : ℕ) (hb : 2 ≤ b) :
    2 ^ (2 * computeNumberOfOctaves (b, b) + 1) < b * b ∧
    b * b < 2 ^ (2 * computeNumberOfOctaves (b, b) + 3) := by
  have hmin : min b b = b := min_self b
  have hn1 : 1 ≤ b * b / 2 := by
    have : 2 * 2 ≤ b * b := Nat.mul_le_mul hb hb
    omega
  obtain ⟨l1, l2⟩ := log2floor_spec (b * b / 2) hn1
  set t := log2floor (b * b / 2) with ht
  -- 2^t ≤ b*b/2  ⟺  2^(t+1) ≤ b*b ;  b*b/2 < 2^(t+1)  ⟺  b*b < 2^(t+2)
  have u1 : 2 ^ (t + 1) ≤ b * b := by
    have := Nat.mul_le_mul_right 2 l1
    have hd : b * b / 2 * 2 ≤ b * b := by omega
    calc 2 ^ (t + 1) = 2 ^ t * 2 := by ring
    _ ≤ b * b / 2 * 2 := by omega
    _ ≤ b * b := hd
  have u2 : b * b < 2 ^ (t + 2) := by
    have : b * b < (b * b / 2 + 1) * 2 := by omega
    calc b * b < (b * b / 2 + 1) * 2 := this
    _ ≤ 2 ^ (t + 1) * 2 := by
        have : b * b / 2 + 1 ≤ 2 ^ (t + 1) := l2
        omega
    _ = 2 ^ (t + 2) := by ring
  have hk : computeNumberOfOctaves (b, b) = t / 2 := by
    simp only [computeNumberOfOctaves, hmin, ht]
  rcases Nat.even_or_odd t with ⟨m, hm⟩ | ⟨m, hm⟩
  · -- t = 2m : k = m ; strictness at the lower end from `sq_ne_two_pow_odd`
    have hkm : computeNumberOfOctaves (b, b) = m := by omega
    constructor
    · rw [hkm]
      have : 2 ^ (2 * m + 1) ≤ b * b := by
        have : t + 1 = 2 * m + 1 := by omega
        rwa [this] at u1
      rcases Nat.lt_or_ge (2 ^ (2 * m + 1)) (b * b) with h | h
      · exact h
      · exfalso
        exact sq_ne_two_pow_odd m b (by omega)
    · rw [hkm]
      have he : t + 2 = 2 * m + 2 := by omega
      rw [he] at u2
      have : (2 : ℕ) ^ (2 * m + 2) ≤ 2 ^ (2 * m + 3) :=
        Nat.pow_le_pow_right (by omega) (by omega)
      omega
  · -- t = 2m+1 : k = m
    have hkm : computeNumberOfOctaves (b, b) = m := by omega
    constructor
    · rw [hkm]
      have he : t + 1 = 2 * m + 2 := by omega
      rw [he] at u1
      have : (2 : ℕ) ^ (2 * m + 1) < 2 ^ (2 * m + 2) :=
        Nat.pow_lt_pow_right (by omega) (by omega)
      omega
    · rw [hkm]
      have he : t + 2 = 2 * m + 3 := by omega
      rwa [he] at u2

theorem octaveShape_eq (base : ℕ × ℕ) :
    ∀ k : ℕ, octaveShape base k = (base.1 / 2 ^ k, base.2 / 2 ^ k) := by
  intro k
  induction k with
  | zero => simp [octaveShape]
  | succ k ih =>
    simp only [octaveShape, ih, halveShape]
    rw [Prod.mk.injEq]
    constructor
    · rw [Nat.div_div_eq_div_mul, pow_succ]
    · rw [Nat.div_div_eq_div_mul, pow_succ]

theorem computeNumberOfOctaves_pair (x y : ℕ) :
    computeNumberOfOctaves (x, y) = computeNumberOfOctaves (min x y, min x y) := by
  simp [computeNumberOfOctaves]

/-- C4 (counterexample): for a 23x23 input image the code computes
`int(round(log2(46) - 1)) = 5` octaves, while the claimed formula
`floor(log2(min(h, w)) - 1)` gives `3`; moreover with the computed count the
smallest (fifth) octave has shorter side `2 < 3`.  (`log2floor 23 = 3` is
`floor(log2 23)`, so the claimed count is `3 - ... `, rendered below;
`octaveShape (46, 46) 4` is the shape of the last octave.) -/
theorem claim_C4_counterexample :
    computeNumberOfOctaves (2 * 23, 2 * 23) = 5 ∧
    log2floor 23 - 1 = 3 ∧
    (5 : ℕ) ≠ 3 ∧
    min (octaveShape (2 * 23, 2 * 23) 4).1 (octaveShape (2 * 23, 2 * 23) 4).2 = 2 ∧
    ¬ (3 : ℕ) ≤ 2 := by
  refine ⟨by decide, by decide, by decide, by decide, by decide⟩

/-- C4 (amended): for an input of shape `h × w` with shorter side
`m = min h w ≥ 2`, the octave count computed by the pipeline (which applies
`computeNumberOfOctaves` to the doubled base-image shape) is the unique `k`
with `2^(2k-1) < m² < 2^(2k+1)` — that is `k = round(log₂ m)`, not
`floor(log₂ m) - 1` — and with that count the smallest octave's shorter
side is at least 2 (not 3; it equals 2 e.g. for `m = 23`). -/
theorem claim_C4_amended (h w : ℕ) (hm : 2 ≤ min h w) :
    1 ≤ computeNumberOfOctaves (2 * h, 2 * w) ∧
    2 ^ (2 * computeNumberOfOctaves (2 * h, 2 * w) - 1) < min h w * min h w ∧
    min h w * min h w < 2 ^ (2 * computeNumberOfOctaves (2 * h, 2 * w) + 1) ∧
    2 ≤ min (octaveShape (2 * h, 2 * w) (computeNumberOfOctaves (2 * h, 2 * w) - 1)).1
          (octaveShape (2 * h, 2 * w) (computeNumberOfOctaves (2 * h, 2 * w) - 1)).2 := by
  set m := min h w with hmdef
  have hb : 2 ≤ 2 * m := by omega
  have hminmul : min (2 * h) (2 * w) = 2 * m := by omega
  have hpair : computeNumberOfOctaves (2 * h, 2 * w) = computeNumberOfOctaves (2 * m, 2 * m) := by
    rw [computeNumberOfOctaves_pair, hminmul]
  obtain ⟨c1, c2⟩ := computeNumberOfOctaves_char (2 * m) hb
  set k := computeNumberOfOctaves (2 * m, 2 * m) with hkdef
  -- k ≥ 1 : otherwise 4m² < 2^3 = 8, impossible for m ≥ 2
  have hk1 : 1 ≤ k := by
    by_contra hk0
    have hk0' : k = 0 := by omega
    rw [hk0'] at c2
    have : 2 * 2 ≤ m * m := Nat.mul_le_mul hm hm
    simp only [Nat.mul_zero, Nat.zero_add] at c2
    have h8 : (2 : ℕ) ^ 3 = 8 := by norm_num
    rw [h8] at c2
    nlinarith
  -- 2^(2k-1) < m²  and  m² < 2^(2k+1)
  have e1 : 2 ^ (2 * k - 1) < m * m := by
    have hexp : 2 * k + 1 = (2 * k - 1) + 2 := by omega
    rw [hexp, pow_add] at c1
    have : 2 ^ (2 * k - 1) * 4 < (2 * m) * (2 * m) := by
      calc 2 ^ (2 * k - 1) * 4 = 2 ^ (2 * k - 1) * 2 ^ 2 := by norm_num
      _ < 2 * m * (2 * m) := c1
    nlinarith
  have e2 : m * m < 2 ^ (2 * k + 1) := by
    have hexp : 2 * k + 3 = (2 * k + 1) + 2 := by omega
    rw [hexp, pow_add] at c2
    have : (2 * m) * (2 * m) < 2 ^ (2 * k + 1) * 4 := by
      calc 2 * m * (2 * m) < 2 ^ (2 * k + 1) * 2 ^ 2 := c2
      _ = 2 ^ (2 * k + 1) * 4 := by norm_num
    nlinarith
  -- smallest octave shorter side ≥ 2
  have hlt : 2 ^ (k - 1) < m := by
    have hsq : 2 ^ (k - 1) * 2 ^ (k - 1) < m * m := by
      have hle : 2 * (k - 1) ≤ 2 * k - 1 := by omega
      have : (2 : ℕ) ^ (2 * (k - 1)) ≤ 2 ^ (2 * k - 1) :=
        Nat.pow_le_pow_right (by omega) hle
      calc 2 ^ (k - 1) * 2 ^ (k - 1) = 2 ^ (2 * (k - 1)) := by rw [← pow_add]; ring_nf
      _ ≤ 2 ^ (2 * k - 1) := this
      _ < m * m := e1
    exact Nat.mul_self_lt_mul_self_iff.mp hsq
  have hside : 2 ≤ 2 * m / 2 ^ (k - 1) := by
    rw [Nat.le_div_iff_mul_le (Nat.pos_pow_of_pos _ (by omega))]
    omega
  refine ⟨by rw [hpair]; exact hk1, by rw [hpair]; exact e1, by rw [hpair]; exact e2, ?_⟩
  rw [hpair]
  rw [octaveShape_eq]
  simp only []
  have h1 : 2 * h / 2 ^ (k - 1) ≥ 2 * m / 2 ^ (k - 1) :=
    Nat.div_le_div_right (by omega)
  have h2 : 2 * w / 2 ^ (k - 1) ≥ 2 * m / 2 ^ (k - 1) :=
    Nat.div_le_div_right (by omega)
  omega

/-- Witness for C4 (amended) at a concrete 7 × 9 input: three octaves,
`2^5 < 49 < 2^7`, smallest octave shape `(3, 4)`. -/
theorem claim_C4_witness :
    2 ≤ min 7 9 ∧
    (1 ≤ computeNumberOfOctaves (2 * 7, 2 * 9) ∧
     2 ^ (2 * computeNumberOfOctaves (2 * 7, 2 * 9) - 1) < min 7 9 * min 7 9 ∧
     min 7 9 * min 7 9 < 2 ^ (2 * computeNumberOfOctaves (2 * 7, 2 * 9) + 1) ∧
     2 ≤ min (octaveShape (2 * 7, 2 * 9) (computeNumberOfOctaves (2 * 7, 2 * 9) - 1)).1
           (octaveShape (2 * 7, 2 * 9) (computeNumberOfOctaves (2 * 7, 2 * 9) - 1)).2) :=
  ⟨by decide, claim_C4_amended 7 9 (by decide)⟩

/-- C5 (confirmed): an interior DoG pixel is classified as a candidate
extremum iff its absolute value strictly exceeds
`floor(0.5 * contrast_threshold / num_intervals * 255)` and it is
non-strictly ≥ (positive center) resp. ≤ (negative center) every one of its
26 neighbors; a center of exactly zero is never a candidate (the code's
comparison against the full middle 3×3 slice includes the center itself,
but `c ≥ c` always holds, so it is equivalent to the 26-neighbor form). -/
theorem center_le_iff_neighbors (s : Subimage) :
    (∀ i j, s i j ≤ s 1 1) ↔ (∀ i j, ¬(i = 1 ∧ j = 1) → s i j ≤ s 1 1) := by
  constructor
  · intro h i j _; exact h i j
  · intro h i j
    by_cases hij : i = 1 ∧ j = 1
    · obtain ⟨hi, hj⟩ := hij; subst hi; subst hj; exact le_refl _
    · exact h i j hij

theorem center_ge_iff_neighbors (s : Subimage) :
    (∀ i j, s 1 1 ≤ s i j) ↔ (∀ i j, ¬(i = 1 ∧ j = 1) → s 1 1 ≤ s i j) := by
  constructor
  · intro h i j _; exact h i j
  · intro h i j
    by_cases hij : i = 1 ∧ j = 1
    · obtain ⟨hi, hj⟩ := hij; subst hi; subst hj; exact le_refl _
    · exact h i j hij

theorem claim_C5_extremum_iff (first second third : Subimage)
    (contrast_threshold num_intervals : ℚ) :
    (isPixelAnExtremum first second third
        (findScaleSpaceExtremaThreshold contrast_threshold num_intervals) = true ↔
      isCandidateExtremumSpec first second third
        (findScaleSpaceExtremaThreshold contrast_threshold num_intervals)) ∧
    (second 1 1 = 0 →
      isPixelAnExtremum first second third
        (findScaleSpaceExtremaThreshold contrast_threshold num_intervals) = false) := by
  set thr := findScaleSpaceExtremaThreshold contrast_threshold num_intervals with hthr
  constructor
  · simp only [isPixelAnExtremum, isCandidateExtremumSpec]
    split_ifs with habs hpos hneg
    · -- |c| > thr and c > 0
      simp only [Bool.and_eq_true, decide_eq_true_eq]
      constructor
      · intro hb
        obtain ⟨h1, h3, h2⟩ : (∀ i j, first i j ≤ second 1 1) ∧
            (∀ i j, third i j ≤ second 1 1) ∧
            (∀ i j, second i j ≤ second 1 1) := by tauto
        exact ⟨habs, Or.inl ⟨hpos, h1, h3,
          (center_le_iff_neighbors second).mp h2⟩⟩
      · rintro ⟨-, h | h⟩
        · obtain ⟨-, h1, h3, h2⟩ := h
          have h2' := (center_le_iff_neighbors second).mpr h2
          tauto
        · exact absurd h.1 (not_lt.mpr (le_of_lt hpos))
    · -- |c| > thr and c < 0
      simp only [Bool.and_eq_true, decide_eq_true_eq]
      constructor
      · intro hb
        obtain ⟨h1, h3, h2⟩ : (∀ i j, second 1 1 ≤ first i j) ∧
            (∀ i j, second 1 1 ≤ third i j) ∧
            (∀ i j, second 1 1 ≤ second i j) := by tauto
        exact ⟨habs, Or.inr ⟨hneg, h1, h3,
          (center_ge_iff_neighbors second).mp h2⟩⟩
      · rintro ⟨-, h | h⟩
        · exact absurd h.1 (not_lt.mpr (le_of_lt hneg))
        · obtain ⟨-, h1, h3, h2⟩ := h
          have h2' := (center_ge_iff_neighbors second).mpr h2
          tauto
    · -- |c| > thr, c = 0: the source falls through and returns False
      constructor
      · intro hfalse; exact absurd hfalse (by simp)
      · rintro ⟨-, h | h⟩
        · exact absurd h.1 hpos
        · exact absurd h.1 hneg
    · -- |c| ≤ thr
      constructor
      · intro hfalse; exact absurd hfalse (by simp)
      · rintro ⟨hc, -⟩; exact absurd hc habs
  · intro hzero
    simp only [isPixelAnExtremum]
    split_ifs with habs hpos hneg
    · rw [hzero] at hpos; exact absurd hpos (lt_irrefl 0)
    · rw [hzero] at hneg; exact absurd hneg (lt_irrefl 0)
    · rfl
    · rfl

/-- C2 (code bug): the gradient half of the claim holds — the computed
gradient is exactly the central-difference 3-vector with step 1 — but
`computeHessianAtCenterPixel` never returns a Hessian: it raises
`NameError` (modelled by `none`) on every 3×3×3 input because its
`center_pixel_value` assignment is commented out, contradicting the claimed
central-difference Hessian formulas. -/
theorem claim_C2_gradient_hessian (pixel_array : PixelCube) :
    computeGradientAtCenterPixel pixel_array =
      ((pixel_array 1 1 2 - pixel_array 1 1 0) / 2,
       (pixel_array 1 2 1 - pixel_array 1 0 1) / 2,
       (pixel_array 2 1 1 - pixel_array 0 1 1) / 2) ∧
    computeHessianAtCenterPixel pixel_array = none := by
  refine ⟨?_, rfl⟩
  simp only [computeGradientAtCenterPixel, Prod.mk.injEq]
  refine ⟨by ring, by ring, by ring⟩

/-- C1 (code bug): for every candidate extremum the localization routine
raises `NameError` during its first refinement attempt (the Hessian helper's
`center_pixel_value` is undefined, and the convergence check references the
unbound name `np`), so the documented iterate-up-to-budget /
converge-when-update-small / discard-on-exhaustion behavior is never
executed. -/
theorem claim_C1_localization_raises (cube : PixelCube) :
    localizeExtremumViaQuadraticFit cube = Except.error () := rfl

theorem nat_testBit_mul256_add (q r i : ℕ) (hr : r < 256) :
    Nat.testBit (256 * q + r) i =
      if i < 8 then Nat.testBit r i else Nat.testBit q (i - 8) := by
  rcases Nat.lt_or_ge i 8 with h | h
  · rw [if_pos h]
    have hmod : (256 * q + r) % 2 ^ 8 = r := by
      have h256 : (2 : ℕ) ^ 8 = 256 := by norm_num
      rw [h256]; omega
    have h2 := Nat.testBit_mod_two_pow (256 * q + r) 8 i
    rw [hmod] at h2
    rw [h2, decide_eq_true h, Bool.true_and]
  · rw [if_neg (by omega)]
    have hdiv : (256 * q + r) >>> 8 = q := by
      rw [Nat.shiftRight_eq_div_pow]
      have h256 : (2 : ℕ) ^ 8 = 256 := by norm_num
      rw [h256]; omega
    have := Nat.testBit_shiftRight (i := 8) (j := i - 8) (256 * q + r)
    rw [hdiv] at this
    rw [this]
    congr 1
    omega

theorem nat_testBit_high_false {r i : ℕ} (hr : r < 256) (hi : 8 ≤ i) :
    Nat.testBit r i = false := by
  have : r < 2 ^ i := lt_of_lt_of_le hr (by
    calc (256 : ℕ) = 2 ^ 8 := by norm_num
    _ ≤ 2 ^ i := Nat.pow_le_pow_right (by omega) hi)
  exact Nat.testBit_eq_false_of_lt this

theorem nat_and_255 (n : ℕ) : n &&& 255 = n % 256 := by
  apply Nat.eq_of_testBit_eq
  intro i
  rw [Nat.testBit_land]
  have h255 : (255 : ℕ) = 2 ^ 8 - 1 := by norm_num
  have h256 : (256 : ℕ) = 2 ^ 8 := by norm_num
  rw [h255, Nat.testBit_two_pow_sub_one, h256, Nat.testBit_mod_two_pow, Bool.and_comm]

theorem nat_ldiff_255 (n : ℕ) : Nat.ldiff n 255 = 256 * (n / 256) := by
  apply Nat.eq_of_testBit_eq
  intro i
  rw [Nat.testBit_ldiff]
  have h255 : (255 : ℕ) = 2 ^ 8 - 1 := by norm_num
  rw [h255, Nat.testBit_two_pow_sub_one]
  have hrhs := nat_testBit_mul256_add (n / 256) 0 i (by omega)
  rw [Nat.add_zero] at hrhs
  rw [hrhs]
  rcases Nat.lt_or_ge i 8 with h | h
  · rw [if_pos h, decide_eq_true h, Bool.not_true, Bool.and_false, Nat.zero_testBit]
  · rw [if_neg (by omega), decide_eq_false (by omega), Bool.not_false, Bool.and_true]
    have := Nat.testBit_shiftRight (i := 8) (j := i - 8) n
    rw [Nat.shiftRight_eq_div_pow] at this
    have h256 : (2 : ℕ) ^ 8 = 256 := by norm_num
    rw [h256] at this
    rw [this]
    congr 1
    omega

theorem nat_ldiff_255_left (m : ℕ) : Nat.ldiff 255 m = 255 - m % 256 := by
  apply Nat.eq_of_testBit_eq
  intro i
  rw [Nat.testBit_ldiff]
  have hlt : m % 256 < 2 ^ 8 := by
    have : m % 256 < 256 := Nat.mod_lt _ (by omega)
    omega
  have hsub : 255 - m % 256 = 2 ^ 8 - (m % 256 + 1) := by omega
  rw [hsub, Nat.testBit_two_pow_sub_succ hlt]
  have h255 : (255 : ℕ) = 2 ^ 8 - 1 := by norm_num
  rw [h255, Nat.testBit_two_pow_sub_one]
  rcases Nat.lt_or_ge i 8 with h | h
  · have h256 : (256 : ℕ) = 2 ^ 8 := by norm_num
    rw [h256, Nat.testBit_mod_two_pow, decide_eq_true h]
    simp
  · rw [decide_eq_false (by omega)]
    simp

theorem nat_mul256_lor (q r : ℕ) (hr : r < 256) : (256 * q) ||| r = 256 * q + r := by
  apply Nat.eq_of_testBit_eq
  intro i
  rw [Nat.testBit_lor, nat_testBit_mul256_add q r i hr]
  have hml := nat_testBit_mul256_add q 0 i (by omega)
  rw [Nat.add_zero] at hml
  rw [hml]
  rcases Nat.lt_or_ge i 8 with h | h
  · rw [if_pos h, if_pos h, Nat.zero_testBit, Bool.false_or]
  · rw [if_neg (by omega), if_neg (by omega), nat_testBit_high_false hr h, Bool.or_false]

theorem nat_lor_255 (m : ℕ) : m ||| 255 = 256 * (m / 256) + 255 := by
  apply Nat.eq_of_testBit_eq
  intro i
  rw [Nat.testBit_lor, nat_testBit_mul256_add (m / 256) 255 i (by omega)]
  have h255 : (255 : ℕ) = 2 ^ 8 - 1 := by norm_num
  rw [h255, Nat.testBit_two_pow_sub_one]
  rcases Nat.lt_or_ge i 8 with h | h
  · rw [if_pos h, decide_eq_true h, Bool.or_true]
  · rw [if_neg (by omega), decide_eq_false (by omega), Bool.or_false]
    have := Nat.testBit_shiftRight (i := 8) (j := i - 8) m
    rw [Nat.shiftRight_eq_div_pow] at this
    have h256 : (2 : ℕ) ^ 8 = 256 := by norm_num
    rw [h256] at this
    rw [this]
    congr 1
    omega

theorem nat_ldiff_full_low (q y : ℕ) (hy : y < 256) :
    Nat.ldiff (256 * q + 255) y = 256 * q + (255 - y) := by
  apply Nat.eq_of_testBit_eq
  intro i
  rw [Nat.testBit_ldiff, nat_testBit_mul256_add q 255 i (by omega),
    nat_testBit_mul256_add q (255 - y) i (by omega)]
  rcases Nat.lt_or_ge i 8 with h | h
  · rw [if_pos h, if_pos h]
    have hy8 : y < 2 ^ 8 := by omega
    have hsub : 255 - y = 2 ^ 8 - (y + 1) := by omega
    rw [hsub, Nat.testBit_two_pow_sub_succ hy8]
    have h255 : (255 : ℕ) = 2 ^ 8 - 1 := by norm_num
    rw [h255, Nat.testBit_two_pow_sub_one, decide_eq_true h]
  · rw [if_neg (by omega), if_neg (by omega), nat_testBit_high_false hy h]
    simp

/-- The low byte of any Python int, `x & 255`, is `x mod 256` (Euclidean). -/
theorem int_land_255 (x : ℤ) : Int.land x 255 = x % 256 := by
  cases x with
  | ofNat n =>
    have hred : Int.land (Int.ofNat n) 255 = Int.ofNat (n &&& 255) := rfl
    rw [hred, nat_and_255]
    simp only [Int.ofNat_eq_natCast]
    omega
  | negSucc m =>
    have hred : Int.land (Int.negSucc m) 255 = Int.ofNat (Nat.ldiff 255 m) := rfl
    rw [hred, nat_ldiff_255_left]
    simp only [Int.ofNat_eq_natCast, Int.negSucc_eq]
    omega

/-- The packed-octave update `(O & ~255) | ((O - 1) & 255)` equals
`256 * (O / 256) + (O - 1) mod 256`: the bits above the low byte are kept
and the low byte is replaced by the low byte of `O - 1`. -/
theorem convertOctave_eq (O : ℤ) :
    Int.lor (Int.land O (Int.lnot 255)) (Int.land (O - 1) 255) =
      256 * (O / 256) + (O - 1) % 256 := by
  cases O with
  | ofNat n =>
    cases n with
    | zero =>
      have h1 : (Int.ofNat 0) - 1 = Int.negSucc 0 := by decide
      rw [h1]
      have hred : Int.lor (Int.land (Int.ofNat 0) (Int.lnot 255))
          (Int.land (Int.negSucc 0) 255) =
          Int.ofNat (Nat.ldiff 0 255 ||| Nat.ldiff 255 0) := rfl
      rw [hred, nat_ldiff_255, nat_ldiff_255_left,
        nat_mul256_lor _ _ (by omega)]
      simp only [Int.ofNat_eq_natCast, Int.negSucc_eq]
      omega
    | succ n =>
      have hs : (Int.ofNat (n + 1)) - 1 = Int.ofNat n := by
        simp only [Int.ofNat_eq_natCast]
        push_cast
        ring
      rw [hs]
      have hred : Int.lor (Int.land (Int.ofNat (n + 1)) (Int.lnot 255))
          (Int.land (Int.ofNat n) 255) =
          Int.ofNat (Nat.ldiff (n + 1) 255 ||| (n &&& 255)) := rfl
      rw [hred, nat_ldiff_255, nat_and_255,
        nat_mul256_lor _ _ (Nat.mod_lt _ (by omega))]
      simp only [Int.ofNat_eq_natCast]
      omega
  | negSucc m =>
    have hs : Int.negSucc m - 1 = Int.negSucc (m + 1) := by
      rw [Int.negSucc_eq, Int.negSucc_eq]
      push_cast
      ring
    rw [hs]
    have hred : Int.lor (Int.land (Int.negSucc m) (Int.lnot 255))
        (Int.land (Int.negSucc (m + 1)) 255) =
        Int.negSucc (Nat.ldiff (m ||| 255) (Nat.ldiff 255 (m + 1))) := rfl
    rw [hred]
    have hy : Nat.ldiff 255 (m + 1) = 255 - (m + 1) % 256 := nat_ldiff_255_left (m + 1)
    have hfull : Nat.ldiff (m ||| 255) (Nat.ldiff 255 (m + 1)) =
        256 * (m / 256) + (m + 1) % 256 := by
      rw [hy, nat_lor_255, nat_ldiff_full_low _ _ (by omega)]
      omega
    rw [hfull]
    simp only [Int.negSucc_eq]
    omega

/-- C6 (confirmed): after scale conversion the low byte of the packed octave
is `((O & 0xFF) - 1) mod 256`, the layer byte (bits 8-15) and sub-layer byte
(bits 16-23) are unchanged, and position and size are exactly halved.
Bytes are extracted with Euclidean `/`/`%`, which on `ℤ` agree with Python's
floor-shifts for the positive divisors used here. -/
theorem claim_C6_octave_roundtrip (kp : KeyPoint) :
    Int.land (convertKeypointToInputImageSize kp).octave 255 =
      (Int.land kp.octave 255 - 1) % 256 ∧
    (convertKeypointToInputImageSize kp).octave / 256 % 256 =
      kp.octave / 256 % 256 ∧
    (convertKeypointToInputImageSize kp).octave / 65536 % 256 =
      kp.octave / 65536 % 256 ∧
    (convertKeypointToInputImageSize kp).pt0 = kp.pt0 / 2 ∧
    (convertKeypointToInputImageSize kp).pt1 = kp.pt1 / 2 ∧
    (convertKeypointToInputImageSize kp).size = kp.size / 2 := by
  have hoct : (convertKeypointToInputImageSize kp).octave =
      256 * (kp.octave / 256) + (kp.octave - 1) % 256 := convertOctave_eq kp.octave
  refine ⟨?_, ?_, ?_, by simp [convertKeypointToInputImageSize]; ring,
    by simp [convertKeypointToInputImageSize]; ring,
    by simp [convertKeypointToInputImageSize]; ring⟩
  · rw [int_land_255, int_land_255, hoct]
    omega
  · rw [hoct]; omega
  · rw [hoct]; omega

/-- C10 (confirmed): scale conversion does not touch `angle`, `response` or
`class_id`, and every octave bit above the low byte is also unchanged
(`O / 256` is the arithmetic right-shift by 8); only position, size and the
low octave byte are modified. -/
theorem claim_C10_conversion_frame (kp : KeyPoint) :
    (convertKeypointToInputImageSize kp).angle = kp.angle ∧
    (convertKeypointToInputImageSize kp).response = kp.response ∧
    (convertKeypointToInputImageSize kp).class_id = kp.class_id ∧
    (convertKeypointToInputImageSize kp).octave / 256 = kp.octave / 256 := by
  refine ⟨rfl, rfl, rfl, ?_⟩
  have hoct : (convertKeypointToInputImageSize kp).octave =
      256 * (kp.octave / 256) + (kp.octave - 1) % 256 := convertOctave_eq kp.octave
  rw [hoct]
  omega

theorem clamp_bounds_01_255 (z : ℚ) :
    0 ≤ (if (if z < 0 then (0 : ℚ) else z) > 255 then 255 else if z < 0 then 0 else z) ∧
    (if (if z < 0 then (0 : ℚ) else z) > 255 then 255 else if z < 0 then 0 else z) ≤ 255 := by
  by_cases h1 : z < 0
  · simp only [if_pos h1]
    norm_num
  · simp only [if_neg h1]
    by_cases h2 : z > 255
    · simp only [if_pos h2]
      norm_num
    · simp only [if_neg h2]
      exact ⟨not_lt.mp h1, not_lt.mp h2⟩

theorem sumSq_map_div (v : List ℚ) (d : ℚ) (hd : d ≠ 0) :
    sumSq (v.map (fun x => x / d)) = sumSq v / (d * d) := by
  induction v with
  | nil => simp [sumSq]
  | cons x xs ih =>
    simp only [sumSq, List.map_cons, List.sum_cons] at ih ⊢
    rw [ih]
    field_simp
    try ring

/-- C7 (confirmed): whatever vector the accumulation produced and whatever
values the Euclidean-norm collaborator returns (constrained only by
`nrm w · nrm w = sumSq w` on the clipped vector), every component of the
emitted descriptor lies in `[0, 255]` (and the output has one component per
input component, 128 in the pipeline); moreover if the clipped vector's
norm is at least the `float_tolerance` floor, the normalized vector just
before the multiply-by-512 step has exactly unit Euclidean norm. -/
theorem claim_C7_descriptor_bounds (nrm : List ℚ → ℚ) (v : List ℚ)
    (hsq : nrm (clipDescriptorVector nrm v) * nrm (clipDescriptorVector nrm v) =
      sumSq (clipDescriptorVector nrm v)) :
    (descriptorPostprocess nrm v).length = v.length ∧
    (∀ x ∈ descriptorPostprocess nrm v, 0 ≤ x ∧ x ≤ 255) ∧
    (float_tolerance ≤ nrm (clipDescriptorVector nrm v) →
      sumSq (normalizeDescriptorVector nrm (clipDescriptorVector nrm v)) = 1) := by
  refine ⟨?_, ?_, ?_⟩
  · simp [descriptorPostprocess, quantizeDescriptorVector, normalizeDescriptorVector,
      clipDescriptorVector]
  · intro x hx
    simp only [descriptorPostprocess, quantizeDescriptorVector, List.mem_map] at hx
    obtain ⟨z, ⟨w, -, rfl⟩, rfl⟩ := hx
    exact clamp_bounds_01_255 w
  · intro hfloor
    have htolpos : (0 : ℚ) < float_tolerance := by norm_num [float_tolerance]
    set c := clipDescriptorVector nrm v with hc
    have hmax : max (nrm c) float_tolerance = nrm c := max_eq_left hfloor
    have hnz : nrm c ≠ 0 := by
      intro h0
      rw [h0] at hfloor
      linarith
    simp only [normalizeDescriptorVector, hmax]
    rw [sumSq_map_div c (nrm c) hnz, ← hsq]
    field_simp

/-- Witness for C7 at the vector of 25 ones (whose Euclidean norm, 5, is
rational, so the collaborator contract can be satisfied exactly): the
clipping threshold is 1, nothing is clipped, and the normalized vector of
25 entries `1/5` has unit norm. -/
theorem claim_C7_witness :
    (nrmExample (clipDescriptorVector nrmExample (List.replicate 25 1)) *
        nrmExample (clipDescriptorVector nrmExample (List.replicate 25 1)) =
      sumSq (clipDescriptorVector nrmExample (List.replicate 25 1))) ∧
    ((descriptorPostprocess nrmExample (List.replicate 25 1)).length =
        (List.replicate 25 (1 : ℚ)).length ∧
     (∀ x ∈ descriptorPostprocess nrmExample (List.replicate 25 1), 0 ≤ x ∧ x ≤ 255) ∧
     (float_tolerance ≤ nrmExample (clipDescriptorVector nrmExample (List.replicate 25 1)) →
       sumSq (normalizeDescriptorVector nrmExample
         (clipDescriptorVector nrmExample (List.replicate 25 1))) = 1)) := by
  have hclip : clipDescriptorVector nrmExample (List.replicate 25 1) =
      List.replicate 25 1 := by
    simp only [clipDescriptorVector, nrmExample, if_pos rfl, List.map_replicate]
    norm_num
  have hsq : nrmExample (clipDescriptorVector nrmExample (List.replicate 25 1)) *
      nrmExample (clipDescriptorVector nrmExample (List.replicate 25 1)) =
      sumSq (clipDescriptorVector nrmExample (List.replicate 25 1)) := by
    rw [hclip]
    simp only [nrmExample, if_pos rfl, sumSq, List.map_replicate, List.sum_replicate]
    norm_num
  exact ⟨hsq, claim_C7_descriptor_bounds nrmExample (List.replicate 25 1) hsq⟩

/-- C8 (confirmed): at every index the source actually interpolates — i.e.
every index satisfying the strict-peak predicate — the parabolic
denominator is strictly negative, hence nonzero, so the interpolated peak
position and the resulting orientation are finite; and the descriptor
normalization denominator is explicitly floored to
`max(norm, float_tolerance) ≥ float_tolerance > 0`, so the division there
is by a strictly positive number and every descriptor component is finite.
(In this exact-arithmetic model a nonzero/positive denominator is precisely
the absence of the NaN/Inf outcomes the claim rules out.) -/
theorem claim_C8_denominators_safe (h : Fin 36 → ℚ) (p : Fin 36)
    (hp : isOrientationPeak h p) (nrm : List ℚ → ℚ) (v : List ℚ) :
    peakInterpolationDenominator h p < 0 ∧
    peakInterpolationDenominator h p ≠ 0 ∧
    float_tolerance ≤ max (nrm (clipDescriptorVector nrm v)) float_tolerance ∧
    0 < float_tolerance := by
  obtain ⟨hl, hr⟩ := hp
  have hneg : peakInterpolationDenominator h p < 0 := by
    unfold peakInterpolationDenominator
    linarith
  exact ⟨hneg, ne_of_lt hneg, le_max_right _ _, by norm_num [float_tolerance]⟩

/-- Witness for C8 at the concrete single-bump histogram (peak at bin 0)
and the trivial norm collaborator. -/
theorem claim_C8_witness :
    isOrientationPeak bumpHistogram 0 ∧
    (peakInterpolationDenominator bumpHistogram 0 < 0 ∧
     peakInterpolationDenominator bumpHistogram 0 ≠ 0 ∧
     float_tolerance ≤ max (nrmZero (clipDescriptorVector nrmZero [])) float_tolerance ∧
     0 < float_tolerance) := by
  have hp : isOrientationPeak bumpHistogram 0 := by
    constructor
    · show bumpHistogram (idx36 ((0 : ℤ) - 1)) < bumpHistogram 0
      decide
    · show bumpHistogram (idx36 ((0 : ℤ) + 1)) < bumpHistogram 0
      decide
  exact ⟨hp, claim_C8_denominators_safe bumpHistogram 0 hp nrmZero []⟩

theorem compareKeypoints_eq_cmpLists (k1 k2 : KeyPoint) :
    compareKeypoints k1 k2 = cmpLists (keypointKey k1) (keypointKey k2) := by
  unfold compareKeypoints keypointKey
  simp only [cmpLists, ne_eq, neg_inj, Int.cast_inj]
  split_ifs <;>
    first
    | rfl
    | ring1
    | (push_cast; ring1)
    | simp_all

theorem cmpLists_trans : ∀ (xs ys zs : List ℚ), xs.length = ys.length →
    ys.length = zs.length → cmpLists xs ys ≤ 0 → cmpLists ys zs ≤ 0 →
    cmpLists xs zs ≤ 0 := by
  intro xs
  induction xs with
  | nil =>
    intro ys zs h1 h2 _ _
    cases ys with
    | nil =>
      cases zs with
      | nil => simp [cmpLists]
      | cons z zs => simp at h2
    | cons y ys => simp at h1
  | cons x xs ih =>
    intro ys zs h1 h2 hxy hyz
    cases ys with
    | nil => simp at h1
    | cons y ys =>
      cases zs with
      | nil => simp at h2
      | cons z zs =>
        simp only [cmpLists, ne_eq] at hxy hyz ⊢
        simp only [List.length_cons, Nat.add_right_cancel_iff] at h1 h2
        by_cases exy : x = y
        · subst exy
          rw [if_neg (by simp)] at hxy
          by_cases exz : x = z
          · subst exz
            rw [if_neg (by simp)] at hyz ⊢
            exact ih ys zs h1 h2 hxy hyz
          · rw [if_pos (by simpa using exz)] at hyz ⊢
            exact hyz
        · rw [if_pos (by simpa using exy)] at hxy
          have hlt : x < y := lt_of_le_of_ne (by linarith) exy
          by_cases eyz : y = z
          · subst eyz
            have hxz : x ≠ y := exy
            rw [if_pos (by simpa using hxz)]
            linarith
          · rw [if_pos (by simpa using eyz)] at hyz
            have hlt2 : y < z := lt_of_le_of_ne (by linarith) eyz
            have hxz : x ≠ z := ne_of_lt (lt_trans hlt hlt2)
            rw [if_pos (by simpa using hxz)]
            linarith

theorem cmpLists_total : ∀ (xs ys : List ℚ), cmpLists xs ys ≤ 0 ∨ cmpLists ys xs ≤ 0 := by
  intro xs
  induction xs with
  | nil =>
    intro ys
    cases ys with
    | nil => left; simp [cmpLists]
    | cons y ys => left; simp [cmpLists]
  | cons x xs ih =>
    intro ys
    cases ys with
    | nil => left; simp [cmpLists]
    | cons y ys =>
      simp only [cmpLists, ne_eq]
      by_cases exy : x = y
      · subst exy
        rw [if_neg (by simp), if_neg (by simp)]
        exact ih ys
      · rw [if_pos (by simpa using exy), if_pos (by simpa using (Ne.symm exy))]
        rcases le_total x y with h | h
        · left; linarith
        · right; linarith

theorem keypointLE_trans (a b c : KeyPoint) (hab : keypointLE a b = true)
    (hbc : keypointLE b c = true) : keypointLE a c = true := by
  simp only [keypointLE, decide_eq_true_eq, compareKeypoints_eq_cmpLists] at hab hbc ⊢
  exact cmpLists_trans _ _ _ (by simp [keypointKey]) (by simp [keypointKey]) hab hbc

theorem keypointLE_total (a b : KeyPoint) :
    (keypointLE a b || keypointLE b a) = true := by
  simp only [keypointLE, Bool.or_eq_true, decide_eq_true_eq, compareKeypoints_eq_cmpLists]
  exact cmpLists_total _ _

theorem removeDuplicatesWalk_sublist :
    ∀ (t : List KeyPoint) (last : KeyPoint),
      (removeDuplicatesWalk last t).Sublist t := by
  intro t
  induction t with
  | nil => intro last; simp [removeDuplicatesWalk]
  | cons next rest ih =>
    intro last
    simp only [removeDuplicatesWalk]
    split_ifs with h
    · exact (ih last).trans (List.sublist_cons_self next rest)
    · exact List.Sublist.cons₂ next (ih next)

theorem removeDuplicatesWalk_chain :
    ∀ (t : List KeyPoint) (last : KeyPoint),
      List.Chain (fun a b => ¬ duplicateOf a b) last (removeDuplicatesWalk last t) := by
  intro t
  induction t with
  | nil => intro last; exact List.Chain.nil
  | cons next rest ih =>
    intro last
    simp only [removeDuplicatesWalk]
    split_ifs with h
    · exact ih last
    · exact List.Chain.cons h (ih next)

theorem removeDuplicatesWalk_of_chain :
    ∀ (t : List KeyPoint) (last : KeyPoint),
      List.Chain (fun a b => ¬ duplicateOf a b) last t →
      removeDuplicatesWalk last t = t := by
  intro t
  induction t with
  | nil => intro last _; rfl
  | cons next rest ih =>
    intro last hch
    cases hch with
    | cons hnd htail =>
      simp only [removeDuplicatesWalk, if_neg hnd]
      rw [ih next htail]

/-- C9 (confirmed): `removeDuplicateKeypoints` is idempotent — its output is
sorted by the comparator's order, and consecutive outputs always differ in
at least one of (x, y, size, angle), so a second application sorts a
sorted list (a no-op for the stable sort) and removes nothing. -/
theorem claim_C9_dedup_idempotent (keypoints : List KeyPoint) :
    removeDuplicateKeypoints (removeDuplicateKeypoints keypoints) =
      removeDuplicateKeypoints keypoints ∧
    List.Pairwise (fun a b => keypointLE a b = true)
      (removeDuplicateKeypoints keypoints) ∧
    List.Chain' (fun a b => ¬ duplicateOf a b)
      (removeDuplicateKeypoints keypoints) := by
  by_cases hlen : keypoints.length < 2
  · have hout : removeDuplicateKeypoints keypoints = keypoints := by
      unfold removeDuplicateKeypoints
      rw [if_pos hlen]
    rw [hout]
    refine ⟨?_, ?_, ?_⟩
    · unfold removeDuplicateKeypoints
      rw [if_pos hlen]
    · cases keypoints with
      | nil => exact List.Pairwise.nil
      | cons a t =>
        cases t with
        | nil => simp
        | cons b t => exact absurd hlen (by simp)
    · cases keypoints with
      | nil => simp
      | cons a t =>
        cases t with
        | nil => simp
        | cons b t => exact absurd hlen (by simp)
  · have hsorted : List.Pairwise (fun a b => keypointLE a b = true)
        (sortKeypoints keypoints) :=
      List.sorted_mergeSort keypointLE_trans keypointLE_total keypoints
    have hlen2 : (sortKeypoints keypoints).length = keypoints.length :=
      (List.mergeSort_perm keypoints keypointLE).length_eq
    cases hsort : sortKeypoints keypoints with
    | nil =>
      rw [hsort] at hlen2
      simp at hlen2
      omega
    | cons k rest =>
      rw [hsort] at hsorted
      have hosub : (k :: removeDuplicatesWalk k rest).Sublist (k :: rest) :=
        List.Sublist.cons₂ k (removeDuplicatesWalk_sublist rest k)
      have hopair : List.Pairwise (fun a b => keypointLE a b = true)
          (k :: removeDuplicatesWalk k rest) := hsorted.sublist hosub
      have hochain : List.Chain (fun a b => ¬ duplicateOf a b) k
          (removeDuplicatesWalk k rest) := removeDuplicatesWalk_chain rest k
      have hout : removeDuplicateKeypoints keypoints =
          k :: removeDuplicatesWalk k rest := by
        unfold removeDuplicateKeypoints
        rw [if_neg hlen, hsort]
      rw [hout]
      refine ⟨?_, hopair, hochain⟩
      by_cases hlen3 : (k :: removeDuplicatesWalk k rest).length < 2
      · unfold removeDuplicateKeypoints
        rw [if_pos hlen3]
      · unfold removeDuplicateKeypoints
        rw [if_neg hlen3]
        have hsorteq : sortKeypoints (k :: removeDuplicatesWalk k rest) =
            k :: removeDuplicatesWalk k rest :=
          List.mergeSort_of_sorted hopair
        rw [hsorteq]
        show k :: removeDuplicatesWalk k (removeDuplicatesWalk k rest) =
          k :: removeDuplicatesWalk k rest
        rw [removeDuplicatesWalk_of_chain _ _ hochain]

theorem computeNumberOfOctaves_min_two (s : ℕ × ℕ) (h : min s.1 s.2 = 2) :
    computeNumberOfOctaves s = 0 := by
  unfold computeNumberOfOctaves
  rw [h]
  decide

/-- C3 (counterexample): for a 12 × 12 input (shorter side 12 < 13) the
pipeline does not compute zero octaves: the base image is 24 × 24 and
`computeNumberOfOctaves` yields `round(log2 24 - 1) = 4`. -/
theorem claim_C3_counterexample :
    imageShape imageExample12 = (12, 12) ∧
    (12 : ℕ) < 2 * 5 + 3 ∧
    computeNumberOfOctaves (imageShape (generateBaseImage resize2xExample
      blurExample sqrtExample imageExample12 (8 / 5) (1 / 2))) = 4 ∧
    (4 : ℕ) ≠ 0 := by
  refine ⟨by decide, by decide, by decide, by decide⟩

/-- C3 (amended): zero octaves occur exactly for inputs whose shorter side
is 1 (the base image's shorter side is then 2): in that case the pipeline
returns an empty keypoint list and an empty descriptor matrix, with no
error, whatever the collaborators do (provided resize-then-blur doubles the
input shape, their documented contract); for every shorter side `m ≥ 2`
(in particular all of `2 ≤ m ≤ 12` below the claimed `2*border+3` bound)
the octave count is nonzero. -/
theorem claim_C3_amended (resize2xLinear : Image → Image)
    (blur : Image → ℚ → Image) (resizeNearest : Image → ℕ × ℕ → Image)
    (sqrtQ : ℚ → ℚ) (k2root : ℚ)
    (localizeF : ℕ → ℕ → ℕ → ℕ → List Image → Option (KeyPoint × ℕ))
    (orientF : KeyPoint → ℕ → Image → List KeyPoint)
    (descF : KeyPoint → List (List Image) → List ℚ)
    (image : Image) (sigma assumed_blur : ℚ) (num_intervals image_border_width : ℕ)
    (hone : min (imageHeight image) (imageWidth image) = 1)
    (hshape : min (imageHeight (generateBaseImage resize2xLinear blur sqrtQ
        image sigma assumed_blur))
      (imageWidth (generateBaseImage resize2xLinear blur sqrtQ
        image sigma assumed_blur)) =
      2 * min (imageHeight image) (imageWidth image)) :
    computeKeypointsAndDescriptors resize2xLinear blur resizeNearest sqrtQ k2root
      localizeF orientF descF image sigma num_intervals assumed_blur
      image_border_width = ([], []) ∧
    (∀ m : ℕ, 2 ≤ m → computeNumberOfOctaves (2 * m, 2 * m) ≠ 0) := by
  constructor
  · have hmin2 : min (imageShape (generateBaseImage resize2xLinear blur sqrtQ
        image sigma assumed_blur)).1
        (imageShape (generateBaseImage resize2xLinear blur sqrtQ
          image sigma assumed_blur)).2 = 2 := by
      simp only [imageShape]
      rw [hshape, hone]
    have hoct : computeNumberOfOctaves (imageShape (generateBaseImage
        resize2xLinear blur sqrtQ image sigma assumed_blur)) = 0 :=
      computeNumberOfOctaves_min_two _ hmin2
    simp only [computeKeypointsAndDescriptors, hoct]
    rfl
  · intro m hm h0
    have hc := (computeNumberOfOctaves_char (2 * m) (by omega)).2
    rw [h0] at hc
    have h8 : (2 : ℕ) ^ (2 * 0 + 3) = 8 := by norm_num
    rw [h8] at hc
    nlinarith

/-- Witness for C3 (amended) at the concrete 1 × 5 input with the concrete
contract-satisfying collaborators. -/
theorem claim_C3_witness :
    (min (imageHeight imageExample1x5) (imageWidth imageExample1x5) = 1 ∧
     min (imageHeight (generateBaseImage resize2xExample blurExample sqrtExample
         imageExample1x5 (8 / 5) (1 / 2)))
       (imageWidth (generateBaseImage resize2xExample blurExample sqrtExample
         imageExample1x5 (8 / 5) (1 / 2))) =
       2 * min (imageHeight imageExample1x5) (imageWidth imageExample1x5)) ∧
    (computeKeypointsAndDescriptors resize2xExample blurExample
        resizeNearestExample sqrtExample 1 localizeExample orientExample
        descExample imageExample1x5 (8 / 5) 3 (1 / 2) 5 = ([], []) ∧
     (∀ m : ℕ, 2 ≤ m → computeNumberOfOctaves (2 * m, 2 * m) ≠ 0)) := by
  have h1 : min (imageHeight imageExample1x5) (imageWidth imageExample1x5) = 1 := by
    decide
  have h2 : min (imageHeight (generateBaseImage resize2xExample blurExample
      sqrtExample imageExample1x5 (8 / 5) (1 / 2)))
      (imageWidth (generateBaseImage resize2xExample blurExample sqrtExample
        imageExample1x5 (8 / 5) (1 / 2))) =
      2 * min (imageHeight imageExample1x5) (imageWidth imageExample1x5) := by
    decide
  exact ⟨⟨h1, h2⟩, claim_C3_amended resize2xExample blurExample
    resizeNearestExample sqrtExample 1 localizeExample orientExample descExample
    imageExample1x5 (8 / 5) (1 / 2) 3 5 h1 h2⟩

end Pysift
